import Mathlib

/-!
Shallow embedding of `src/main.py` (mcsavesfix): a tool that resolves a
Minecraft player UUID from local evidence (the `usercache.json` player cache)
and renames the latest-modified per-player file of each repair category
(`advancements`, `stats`, `playerdata`) inside a save folder to
`<uuid>.<ext>`.

Modelling conventions:
* Python strings are `String`, manipulated through structural `List Char`
  helpers so that every definition reduces in the kernel.
* `os.path.getmtime` results (floats) are modelled as `Int` timestamps;
  the sentinel `latest_time = -1.0` of `latest_modified` is kept literally.
* The filesystem subtree that `Path.rglob("*")` visits is a list of entries
  in traversal order; a rename keeps the renamed entry at its position and
  drops any other entry that carried the target name (POSIX rename
  overwrite semantics).
* `datetime.datetime.now()` is an explicit `now : DateTime` argument;
  `datetime.datetime.fromisoformat` is modelled for the
  `YYYY-MM-DD[ HH[:MM[:SS]]]` shapes the code feeds it.
* Python exceptions become `Except PyError` / explicit error components.
* The class-level attribute `UuidReader.possible_uuid` (line 221 of the
  source) is threaded explicitly: `read` receives the current content of the
  class attribute and returns its new content, which models how the list is
  shared by every `UuidReader` instance of the process.
-/

/-! ### Character-list helpers mirroring Python `str` operations -/

/-- Python `s.split(sep)` for a single-character separator: splits at every
occurrence, keeping empty chunks; the result is never empty. -/
def splitOnChar (sep : Char) : List Char → List (List Char)
  | [] => [[]]
  | c :: cs =>
    match splitOnChar sep cs with
    | [] => [[c]]
    | g :: gs => if c = sep then [] :: g :: gs else (c :: g) :: gs

/-- Python `s.strip()` restricted to ASCII whitespace. -/
def trimChars (cs : List Char) : List Char :=
  ((cs.dropWhile Char.isWhitespace).reverse.dropWhile Char.isWhitespace).reverse

/-! ### `datetime` model -/

/-- A parsed `datetime.datetime` value (no timezone: the code strips the
`+ZZZZ` part before parsing). -/
structure DateTime where
  year : Nat
  month : Nat
  day : Nat
  hour : Nat
  minute : Nat
  second : Nat
deriving DecidableEq

/-- Injective encoding of a (range-validated) datetime for ordering: all
fields except the year are `< 100`, so base-100 encoding agrees with the
lexicographic field-by-field comparison Python `datetime` uses. -/
def DateTime.key (d : DateTime) : Nat :=
  ((((d.year * 100 + d.month) * 100 + d.day) * 100 + d.hour) * 100 + d.minute) * 100
    + d.second

/-- Python `a < b` on `datetime` values. -/
def dtLt (a b : DateTime) : Bool := decide (a.key < b.key)

/-- Reads a non-empty all-digit character list as a decimal `Nat`. -/
def digitsVal : List Char → Nat → Option Nat
  | [], acc => some acc
  | c :: cs, acc => if c.isDigit then digitsVal cs (acc * 10 + (c.toNat - 48)) else none

/-- A fixed-width decimal field, as `fromisoformat` requires. -/
def parseFixed (len : Nat) (cs : List Char) : Option Nat :=
  if cs.length = len then digitsVal cs 0 else none

/-- The `YYYY-MM-DD` part of an ISO datetime, with the range checks
`datetime` performs (day validated only against 31, a benign relaxation). -/
def parseDatePart (cs : List Char) : Option (Nat × Nat × Nat) :=
  match splitOnChar '-' cs with
  | [y, m, d] => do
    let yv ← parseFixed 4 y
    let mv ← parseFixed 2 m
    let dv ← parseFixed 2 d
    if 1 ≤ mv ∧ mv ≤ 12 ∧ 1 ≤ dv ∧ dv ≤ 31 then some (yv, mv, dv) else none
  | _ => none

/-- The `HH[:MM[:SS]]` part of an ISO datetime. -/
def parseTimePart (cs : List Char) : Option (Nat × Nat × Nat) :=
  match splitOnChar ':' cs with
  | [h] => do
    let hv ← parseFixed 2 h
    if hv ≤ 23 then some (hv, 0, 0) else none
  | [h, mi] => do
    let hv ← parseFixed 2 h
    let miv ← parseFixed 2 mi
    if hv ≤ 23 ∧ miv ≤ 59 then some (hv, miv, 0) else none
  | [h, mi, s] => do
    let hv ← parseFixed 2 h
    let miv ← parseFixed 2 mi
    let sv ← parseFixed 2 s
    if hv ≤ 23 ∧ miv ≤ 59 ∧ sv ≤ 59 then some (hv, miv, sv) else none
  | _ => none

/-- `datetime.datetime.fromisoformat` for the shapes the tool feeds it
(date, or date + space + time; fractional seconds never occur because the
cache stores whole seconds). `none` models the `ValueError` it raises. -/
def parseIsoChars (cs : List Char) : Option DateTime :=
  match splitOnChar ' ' cs with
  | [d] =>
    (parseDatePart d).map (fun yv => DateTime.mk yv.1 yv.2.1 yv.2.2 0 0 0)
  | [d, t] => do
    let yv ← parseDatePart d
    let tv ← parseTimePart t
    some (DateTime.mk yv.1 yv.2.1 yv.2.2 tv.1 tv.2.1 tv.2.2)
  | _ => none

def parseIso (s : String) : Option DateTime := parseIsoChars s.toList

/-- The argument the source builds for `fromisoformat`:
`expire.split("+")[0].strip()`. -/
def expireArg (es : String) : String :=
  (trimChars ((splitOnChar '+' es.toList).headD [])).asString

/-! ### Python errors -/

/-- The Python exceptions the modelled code can raise. -/
inductive PyError where
  | fileNotFound
  | jsonDecode
  | typeError
  | keyError
  | assertionError
  | valueError
  | attributeError
deriving DecidableEq

/-! ### JSON values (result of `json.load`) -/

mutual
/-- A parsed JSON value. The mutual presentation (instead of nesting
`List Json`) keeps every recursion structural, hence kernel-reducible. -/
inductive Json where
  | null
  | bool (b : Bool)
  | num (n : Int)
  | str (s : String)
  | arr (elems : JsonList)
  | obj (fields : JsonFields)

/-- A JSON array body. -/
inductive JsonList where
  | nil
  | cons (head : Json) (tail : JsonList)

/-- A JSON object body (keys in file order; `json.load` keeps the last
duplicate, and our inputs have no duplicate keys). -/
inductive JsonFields where
  | nil
  | cons (key : String) (val : Json) (tail : JsonFields)
end

mutual
/-- Python `==` on JSON values. -/
def jsonBeq : Json → Json → Bool
  | .null, .null => true
  | .bool a, .bool b => a == b
  | .num a, .num b => a == b
  | .str a, .str b => a == b
  | .arr a, .arr b => jsonListBeq a b
  | .obj a, .obj b => jsonFieldsBeq a b
  | _, _ => false

def jsonListBeq : JsonList → JsonList → Bool
  | .nil, .nil => true
  | .cons a as1, .cons b bs1 => jsonBeq a b && jsonListBeq as1 bs1
  | _, _ => false

def jsonFieldsBeq : JsonFields → JsonFields → Bool
  | .nil, .nil => true
  | .cons k1 v1 fs1, .cons k2 v2 fs2 => k1 == k2 && jsonBeq v1 v2 && jsonFieldsBeq fs1 fs2
  | _, _ => false
end

instance : BEq Json := ⟨jsonBeq⟩

/-- Lookup in a JSON object body (Python `dict.__getitem__` hit/miss). -/
def jsonGet : JsonFields → String → Option Json
  | .nil, _ => none
  | .cons k v fs, key => if k = key then some v else jsonGet fs key

/-- Python subscription `j["key"]`: `KeyError` for a missing key of a dict,
`TypeError` for every non-dict value (list/str/int/bool/None). -/
def jIndex (j : Json) (key : String) : Except PyError Json :=
  match j with
  | .obj fields =>
    match jsonGet fields key with
    | some v => Except.ok v
    | none => Except.error PyError.keyError
  | _ => Except.error PyError.typeError

/-- Python truthiness of a JSON value (`if result:`). -/
def jsonTruthy : Json → Bool
  | .null => false
  | .bool b => b
  | .num n => decide (n ≠ 0)
  | .str s => decide (s ≠ "")
  | .arr .nil => false
  | .arr _ => true
  | .obj .nil => false
  | .obj _ => true

/-! ### `Counter(...).most_common(1)` -/

/-- The keys of `collections.Counter(l)` in first-insertion order. -/
def firstSeen {α : Type} [BEq α] (l : List α) : List α :=
  l.foldl (fun ks a => if ks.contains a then ks else ks ++ [a]) []

/-- The multiplicity `Counter(l)[a]`. -/
def countEq {α : Type} [BEq α] (l : List α) (a : α) : Nat :=
  (l.filter (fun b => b == a)).length

/-- Left fold selecting the first key of maximal multiplicity, which is what
the stable sort underlying `most_common` returns first. -/
def mcGo {α : Type} [BEq α] (l : List α) : Option α → List α → Option α
  | best, [] => best
  | none, k :: ks => mcGo l (some k) ks
  | some b, k :: ks => mcGo l (if countEq l b < countEq l k then some k else some b) ks

/-- `Counter(l).most_common(1)` reduced to its only interesting datum: the
key of the single returned pair, or `none` when `l` is empty. -/
def mostCommon1 {α : Type} [BEq α] (l : List α) : Option α :=
  mcGo l none (firstSeen l)

/-! ### `uuid.UUID(s)` and `UuidReader.format` -/

/-- Value of a hexadecimal digit, or `16` for a non-hex character. -/
def hexVal (c : Char) : Nat :=
  if 48 ≤ c.toNat ∧ c.toNat ≤ 57 then c.toNat - 48
  else if 97 ≤ c.toNat ∧ c.toNat ≤ 102 then c.toNat - 87
  else if 65 ≤ c.toNat ∧ c.toNat ≤ 70 then c.toNat - 55
  else 16

/-- Lower-case hexadecimal digit for a value `< 16` (the `%x` formatting
`str(uuid.UUID(...))` uses). -/
def hexChar (n : Nat) : Char :=
  Char.ofNat (if n < 10 then 48 + n else 87 + n)

/-- `s.replace("urn:", "")`: removes every occurrence, scanning
left-to-right and continuing after each removal. -/
def removeUrnColon : List Char → List Char
  | 'u' :: 'r' :: 'n' :: ':' :: cs => removeUrnColon cs
  | c :: cs => c :: removeUrnColon cs
  | [] => []

/-- `s.replace("uuid:", "")`. -/
def removeUuidColon : List Char → List Char
  | 'u' :: 'u' :: 'i' :: 'd' :: ':' :: cs => removeUuidColon cs
  | c :: cs => c :: removeUuidColon cs
  | [] => []

/-- Is the character one of the braces `s.strip("\x7b\x7d")` removes? -/
def isBrace (c : Char) : Bool := c.toNat = 123 || c.toNat = 125

/-- Python `s.strip("\x7b\x7d")`: strips any run of braces at both ends. -/
def stripBraces (cs : List Char) : List Char :=
  ((cs.dropWhile isBrace).reverse.dropWhile isBrace).reverse

/-- `s.replace("-", "")`. -/
def removeHyphens (cs : List Char) : List Char :=
  cs.filter (fun c => c != '-')

/-- The cleaning pipeline of the `uuid.UUID` constructor on its `hex`
argument: drop `urn:` and `uuid:`, strip braces, drop hyphens. -/
def uuidClean (s : String) : List Char :=
  removeHyphens (stripBraces (removeUuidColon (removeUrnColon s.toList)))

/-- Is the character a lower-case hexadecimal digit (`0`-`9` or `a`-`f`)? -/
def isLowerHex (c : Char) : Bool :=
  decide ((48 ≤ c.toNat ∧ c.toNat ≤ 57) ∨ (97 ≤ c.toNat ∧ c.toNat ≤ 102))

/-- Reinsert hyphens the way `str(uuid.UUID(...))` prints the 32 hex digits:
8-4-4-4-12. -/
def hyphenate (ds : List Char) : List Char :=
  ds.take 8 ++ '-' :: ((ds.drop 8).take 4 ++ '-' ::
    (((ds.drop 8).drop 4).take 4 ++ '-' ::
      ((((ds.drop 8).drop 4).drop 4).take 4 ++ '-' ::
        (((ds.drop 8).drop 4).drop 4).drop 4)))

namespace UuidReader

/-- `UuidReader.format`: `str(uuid.UUID(uuid_input)).lower()`. The
constructor demands exactly 32 hex digits after cleaning (its `ValueError`
is `PyError.valueError`); printing lower-cases the digits, and the final
`.lower()` of the source is the trailing `List.map Char.toLower`. -/
def format (uuid_input : String) : Except PyError String :=
  if (uuidClean uuid_input).length = 32 ∧ ∀ c ∈ uuidClean uuid_input, hexVal c < 16 then
    Except.ok (String.mk
      ((hyphenate ((uuidClean uuid_input).map (fun c => hexChar (hexVal c)))).map
        Char.toLower))
  else Except.error PyError.valueError

/-- `format` applied to whatever JSON value won the vote: only a string can
reach `uuid.UUID` (a non-string raises when the constructor calls
`.replace` on it, modelled as `attributeError`). -/
def formatJson : Json → Except PyError String
  | .str s => format s
  | _ => Except.error PyError.attributeError

end UuidReader

/-! ### `UuidReader.usercache` and `UuidReader.read` -/

/-- The on-disk state of `usercache.json` as `open` + `json.load` see it. -/
inductive CacheFile where
  | missing
  | malformed
  | parsed (j : Json)

namespace UuidReader

/-- The generator `usercache`: a missing file raises `FileNotFoundError`
from `open`, unparseable text raises `JSONDecodeError` from `json.load`,
and otherwise `if result := json.load(f): yield result` yields the whole
parsed value once when it is truthy (so the iteration below sees at most
one element, the entire document). -/
def usercache (file : CacheFile) : Except PyError (List Json) :=
  match file with
  | .missing => Except.error PyError.fileNotFound
  | .malformed => Except.error PyError.jsonDecode
  | .parsed j => Except.ok (if jsonTruthy j then [j] else [])

/-- Body of the `for player in usercache:` loop of `read`: check
`player["expiresOn"]` is a string (`assert False` otherwise), parse it with
the `split("+")[0].strip()` preprocessing, then append `player["uuid"]` to
the shared candidate list when the name matches and the expiry is strictly
in the future. -/
def processPlayer (player_id : String) (now : DateTime) (possible_uuid : List Json)
    (player : Json) : Except PyError (List Json) :=
  match jIndex player "expiresOn" with
  | .error e => .error e
  | .ok (.str es) =>
    match parseIso (expireArg es) with
    | none => .error .valueError
    | some expire =>
      match jIndex player "name" with
      | .error e => .error e
      | .ok nm =>
        if nm == Json.str player_id then
          if dtLt now expire then
            match jIndex player "uuid" with
            | .error e => .error e
            | .ok u => .ok (possible_uuid ++ [u])
          else .ok possible_uuid
        else .ok possible_uuid
  | .ok _ => .error .assertionError

/-- The `for player in usercache:` loop itself: process each yielded value
in order, propagating any raised exception. -/
def processAll (player_id : String) (now : DateTime) :
    List Json → List Json → Except PyError (List Json)
  | acc, [] => .ok acc
  | acc, p :: ps =>
    match processPlayer player_id now acc p with
    | .error e => .error e
    | .ok acc2 => processAll player_id now acc2 ps

/-- `UuidReader.read`. `possible_uuid0` is the content of the class-level
attribute `possible_uuid` when the call starts (line 221: it is declared on
the class, so it survives across instances); the returned list is its
content afterwards. `manual_input` is what `input(...)` would provide if
the candidate pool ends up empty. -/
def read (file : CacheFile) (player_id : String) (now : DateTime)
    (possible_uuid0 : List Json) (manual_input : String) :
    Except PyError (List Json × String) :=
  match usercache file with
  | .error e => .error e
  | .ok players =>
    match processAll player_id now possible_uuid0 players with
    | .error e => .error e
    | .ok possible_uuid =>
      match mostCommon1 possible_uuid with
      | none =>
        match format manual_input with
        | .error e => .error e
        | .ok r => .ok (possible_uuid, r)
      | some c =>
        match formatJson c with
        | .error e => .error e
        | .ok r => .ok (possible_uuid, r)

end UuidReader

/-! ### Filesystem model and `latest_modified` -/

/-- One entry of the `Path.rglob("*")` traversal: its directory, filename,
whether `is_file()` (following links) and `is_symlink()` hold, and its
modification time. -/
structure FsEntry where
  parent : String
  name : String
  isFile : Bool
  isSymlink : Bool
  mtime : Int
deriving DecidableEq

/-- The filter of the loop: `not path.is_file() or path.is_symlink()`
entries are skipped. -/
def qualifies (e : FsEntry) : Bool := e.isFile && !e.isSymlink

/-- The accumulator loop of `latest_modified` with its
`latest_file`/`latest_time` pair; the strict `mod_time > latest_time`
comparison keeps the first entry on ties. -/
def lmGo : List FsEntry → Option FsEntry → Int → Option FsEntry
  | [], latest_file, _ => latest_file
  | path :: rest, latest_file, latest_time =>
    if qualifies path = true then
      if latest_time < path.mtime then lmGo rest (some path) path.mtime
      else lmGo rest latest_file latest_time
    else lmGo rest latest_file latest_time

/-- `latest_modified(folder)`; the argument is the `rglob` listing (empty
when the folder is missing), and the initial `latest_time` is the literal
`-1.0` sentinel of the source. -/
def latest_modified (entries : List FsEntry) : Option FsEntry :=
  lmGo entries none (-1)

/-! ### `Save.fix` -/

/-- `pathlib.PurePath.suffix` of a file name: the part from the last dot,
when that dot is neither the first nor the last character. -/
def suffixOf (name : String) : String :=
  let cs := name.toList
  match lastDotIdx cs 0 none with
  | some i => if 0 < i ∧ i < cs.length - 1 then (cs.drop i).asString else ""
  | none => ""
where
  lastDotIdx : List Char → Nat → Option Nat → Option Nat
    | [], _, best => best
    | c :: cs, i, best => lastDotIdx cs (i + 1) (if c = '.' then some i else best)

/-- What `Save.fix` reports: the warning print for a suspected personal
file, and a performed rename. -/
inductive LogEvent where
  | warnPersonal (path : String)
  | renamed (parent : String) (oldName : String) (newName : String)
deriving DecidableEq

/-- The single error `fix` can raise in the model. -/
inductive FixError where
  | saveNotFound
deriving DecidableEq

/-- `dat_file.rename(dat_file.parent / newName)`: the entry keeps its place
in the traversal listing under its new name; any other entry that already
had the target path is overwritten (POSIX rename semantics). -/
def renameTo (files : List FsEntry) (f : FsEntry) (newName : String) : List FsEntry :=
  (files.filter (fun e => decide (e = f ∨ ¬(e.parent = f.parent ∧ e.name = newName)))).map
    (fun e => if e = f then { e with name := newName } else e)

/-- One iteration of the category loops of `Save.fix` over the directory
listing of one category: find the latest-modified file; warn when its
extension differs from the expected one (note the source prints the warning
and then falls through: there is no `continue` after the print); skip when
it is already `<uuid><ext>`; otherwise rename it. -/
def fixCat (new_uuid : String) (ext : String) (files : List FsEntry) :
    List FsEntry × List LogEvent :=
  match latest_modified files with
  | none => (files, [])
  | some dat_file =>
    let warns :=
      if suffixOf dat_file.name ≠ ext then
        [LogEvent.warnPersonal (dat_file.parent ++ "/" ++ dat_file.name)]
      else []
    if dat_file.name = new_uuid ++ ext then (files, warns)
    else
      (renameTo files dat_file (new_uuid ++ ext),
        warns ++ [LogEvent.renamed dat_file.parent dat_file.name (new_uuid ++ ext)])

/-- A save folder: whether `self.path.is_dir()` holds, and the `rglob`
listings of the three category directories (`TOFIX_JSON = ["advancements",
"stats"]` handled with `.json`, then `TOFIX_DAT = ["playerdata"]` with
`.dat`; the three subtrees are distinct directories, hence separate
fields). -/
structure SaveState where
  isDir : Bool
  advancements : List FsEntry
  stats : List FsEntry
  playerdata : List FsEntry
deriving DecidableEq

namespace Save

/-- `Save.fix(new_uuid)`. The first component is the raised exception if
any (`FileNotFoundError` when the save folder is missing — raised before
any category is touched, so the state comes back unchanged with an empty
log); then the resulting filesystem state and the emitted events in
category order advancements, stats, playerdata. -/
def fix (save : SaveState) (new_uuid : String) :
    Option FixError × SaveState × List LogEvent :=
  if save.isDir = false then (some FixError.saveNotFound, save, [])
  else
    let r1 := fixCat new_uuid ".json" save.advancements
    let r2 := fixCat new_uuid ".json" save.stats
    let r3 := fixCat new_uuid ".dat" save.playerdata
    (none, { save with advancements := r1.1, stats := r2.1, playerdata := r3.1 },
      r1.2 ++ r2.2 ++ r3.2)

end Save

/-! ### Spec-side launcher-script scan (for claim C4) -/

/-- Spec-side helper: the first token following a literal `--uuid` token. -/
def findAfterUuidFlag : List String → Option String
  | [] => none
  | t :: rest => if t = "--uuid" then rest.head? else findAfterUuidFlag rest

/-- Modelled from the spec: the launcher-script scan (spec section 4.3 step 1)
is absent from the source — the only trace is the commented-out
`POSSIBLE_BATCH = ["../PCL/LatestLaunch.bat"]` list. Per the spec's words,
a script's text is searched for a `--uuid <value>` token and the value is
extracted. -/
def extractUuidToken (text : String) : Option String :=
  findAfterUuidFlag
    (((splitOnChar ' ' text.toList).filter (fun t => !t.isEmpty)).map
      (fun t => t.asString))

/-- Modelled from the spec: for each configured relative script path, when
the file exists (`some` content), extract the `--uuid` value as a
candidate; a missing file or absent token contributes nothing. -/
def specScriptCandidates (scripts : List (String × Option String)) : List String :=
  scripts.filterMap (fun sc => sc.2.bind extractUuidToken)

/-! ### Helper lemmas about `latest_modified` -/

/-- Necessary conditions when the scan of `latest_modified` returns a file:
either the incoming accumulator survives untouched, or the result sits in
the list with every earlier qualifying entry strictly older and every later
qualifying entry no newer. -/
lemma lmGo_eq_some (es : List FsEntry) : ∀ (b : Option FsEntry) (t : Int) (f : FsEntry),
    lmGo es b t = some f →
    (b = some f ∧ ∀ e ∈ es, qualifies e = true → e.mtime ≤ t) ∨
    (∃ pre post, es = pre ++ f :: post ∧ qualifies f = true ∧ t < f.mtime ∧
      (∀ e ∈ pre, qualifies e = true → e.mtime < f.mtime) ∧
      (∀ e ∈ post, qualifies e = true → e.mtime ≤ f.mtime)) := by
  induction es with
  | nil =>
    intro b t f h
    exact Or.inl ⟨h, by simp⟩
  | cons p rest ih =>
    intro b t f h
    simp only [lmGo] at h
    by_cases hq : qualifies p = true
    · rw [if_pos hq] at h
      by_cases hm : t < p.mtime
      · rw [if_pos hm] at h
        rcases ih (some p) p.mtime f h with ⟨hb, hall⟩ | ⟨pre, post, hsplit, hqf, ht2, hpre, hpost⟩
        · obtain rfl : p = f := by injection hb
          refine Or.inr ⟨[], rest, by simp, hq, hm, by simp, hall⟩
        · refine Or.inr ⟨p :: pre, post, by simp [hsplit], hqf, lt_trans hm ht2, ?_, hpost⟩
          intro e he _
          rcases List.mem_cons.mp he with rfl | he2
          · exact ht2
          · exact hpre e he2 (by assumption)
      · rw [if_neg hm] at h
        rcases ih b t f h with ⟨hb, hall⟩ | ⟨pre, post, hsplit, hqf, ht2, hpre, hpost⟩
        · refine Or.inl ⟨hb, ?_⟩
          intro e he hqe
          rcases List.mem_cons.mp he with rfl | he2
          · exact le_of_not_lt hm
          · exact hall e he2 hqe
        · refine Or.inr ⟨p :: pre, post, by simp [hsplit], hqf, ht2, ?_, hpost⟩
          intro e he hqe
          rcases List.mem_cons.mp he with rfl | he2
          · exact lt_of_le_of_lt (le_of_not_lt hm) ht2
          · exact hpre e he2 hqe
    · rw [if_neg hq] at h
      rcases ih b t f h with ⟨hb, hall⟩ | ⟨pre, post, hsplit, hqf, ht2, hpre, hpost⟩
      · refine Or.inl ⟨hb, ?_⟩
        intro e he hqe
        rcases List.mem_cons.mp he with rfl | he2
        · exact absurd hqe hq
        · exact hall e he2 hqe
      · refine Or.inr ⟨p :: pre, post, by simp [hsplit], hqf, ht2, ?_, hpost⟩
        intro e he hqe
        rcases List.mem_cons.mp he with rfl | he2
        · exact absurd hqe hq
        · exact hpre e he2 hqe

/-- A held best entry survives when nothing later qualifies with a strictly
newer timestamp. -/
lemma lmGo_stays (post : List FsEntry) : ∀ (x : FsEntry),
    (∀ e ∈ post, qualifies e = true → e.mtime ≤ x.mtime) →
    lmGo post (some x) x.mtime = some x := by
  induction post with
  | nil => intro x _; rfl
  | cons p rest ih =>
    intro x hall
    simp only [lmGo]
    by_cases hq : qualifies p = true
    · rw [if_pos hq]
      have hple : p.mtime ≤ x.mtime := hall p (by simp) hq
      rw [if_neg (not_lt.mpr hple)]
      exact ih x (fun e he hqe => hall e (List.mem_cons_of_mem p he) hqe)
    · rw [if_neg hq]
      exact ih x (fun e he hqe => hall e (List.mem_cons_of_mem p he) hqe)

/-- Sufficient conditions for the scan to return a given qualifying entry:
strictly newer than the running time and than every qualifying entry before
it, at least as new as every qualifying entry after it. -/
lemma lmGo_picks (pre : List FsEntry) : ∀ (post : List FsEntry) (f : FsEntry)
    (b : Option FsEntry) (t : Int),
    qualifies f = true → t < f.mtime →
    (∀ e ∈ pre, qualifies e = true → e.mtime < f.mtime) →
    (∀ e ∈ post, qualifies e = true → e.mtime ≤ f.mtime) →
    lmGo (pre ++ f :: post) b t = some f := by
  induction pre with
  | nil =>
    intro post f b t hqf ht _ hpost
    simp only [List.nil_append, lmGo]
    rw [if_pos hqf, if_pos ht]
    exact lmGo_stays post f hpost
  | cons p rest ih =>
    intro post f b t hqf ht hpre hpost
    simp only [List.cons_append, lmGo]
    by_cases hq : qualifies p = true
    · rw [if_pos hq]
      by_cases hm : t < p.mtime
      · rw [if_pos hm]
        exact ih post f (some p) p.mtime hqf (hpre p (by simp) hq)
          (fun e he hqe => hpre e (List.mem_cons_of_mem p he) hqe) hpost
      · rw [if_neg hm]
        exact ih post f b t hqf ht
          (fun e he hqe => hpre e (List.mem_cons_of_mem p he) hqe) hpost
    · rw [if_neg hq]
      exact ih post f b t hqf ht
        (fun e he hqe => hpre e (List.mem_cons_of_mem p he) hqe) hpost

/-- When the scan returns nothing, it started with nothing and no
qualifying entry beats the running `latest_time`. -/
lemma lmGo_eq_none (es : List FsEntry) : ∀ (b : Option FsEntry) (t : Int),
    lmGo es b t = none →
    b = none ∧ ∀ e ∈ es, qualifies e = true → e.mtime ≤ t := by
  induction es with
  | nil => intro b t h; exact ⟨h, by simp⟩
  | cons p rest ih =>
    intro b t h
    simp only [lmGo] at h
    by_cases hq : qualifies p = true
    · rw [if_pos hq] at h
      by_cases hm : t < p.mtime
      · rw [if_pos hm] at h
        exact absurd (ih (some p) p.mtime h).1 (by simp)
      · rw [if_neg hm] at h
        obtain ⟨hb, hall⟩ := ih b t h
        refine ⟨hb, ?_⟩
        intro e he hqe
        rcases List.mem_cons.mp he with rfl | he2
        · exact le_of_not_lt hm
        · exact hall e he2 hqe
    · rw [if_neg hq] at h
      obtain ⟨hb, hall⟩ := ih b t h
      refine ⟨hb, ?_⟩
      intro e he hqe
      rcases List.mem_cons.mp he with rfl | he2
      · exact absurd hqe hq
      · exact hall e he2 hqe

/-! ### Helper lemma: one category repair is idempotent on the filesystem -/

/-- Running the category loop body twice changes the listing exactly once:
after the first pass the latest-modified file is named `<uuid><ext>` (or
the category was empty), so the second pass leaves the listing alone. -/
lemma fixCat_fs_idem (u ext : String) (files : List FsEntry) :
    (fixCat u ext (fixCat u ext files).1).1 = (fixCat u ext files).1 := by
  cases h : latest_modified files with
  | none => simp [fixCat, h]
  | some f =>
    by_cases hn : f.name = u ++ ext
    · simp [fixCat, h, hn]
    · rcases lmGo_eq_some files none (-1) f h with ⟨hb, _⟩ | ⟨pre, post, hsplit, hqf, ht, hpre, hpost⟩
      · exact absurd hb (by simp)
      · set n := u ++ ext with hndef
        set P : FsEntry → Bool :=
          fun e => decide (e = f ∨ ¬(e.parent = f.parent ∧ e.name = n)) with hP
        set g : FsEntry → FsEntry :=
          fun e => if e = f then { e with name := n } else e with hg
        have hPf : P f = true := by simp [hP]
        have hgf : g f = { f with name := n } := by simp [hg]
        have hdecomp : renameTo files f n =
            (pre.filter P).map g ++ { f with name := n } :: (post.filter P).map g := by
          rw [hsplit]
          simp only [renameTo, ← hP, ← hg, List.filter_append, List.map_append,
            List.filter_cons_of_pos hPf, List.map_cons, hgf]
        have hqr : qualifies { f with name := n } = true := hqf
        have hkey : latest_modified (renameTo files f n) = some { f with name := n } := by
          rw [hdecomp]
          apply lmGo_picks
          · exact hqr
          · exact ht
          · intro e2 he2 hqe2
            rcases List.mem_map.mp he2 with ⟨e, hef, rfl⟩
            have hepre : e ∈ pre := List.mem_of_mem_filter hef
            by_cases hef2 : e = f
            · exact absurd (hpre f (hef2 ▸ hepre) hqf) (lt_irrefl _)
            · rw [hg] at hqe2 ⊢
              simp only [if_neg hef2] at hqe2 ⊢
              exact hpre e hepre hqe2
          · intro e2 he2 hqe2
            rcases List.mem_map.mp he2 with ⟨e, hef, rfl⟩
            have hepost : e ∈ post := List.mem_of_mem_filter hef
            by_cases hef2 : e = f
            · subst hef2
              rw [hg] at hqe2 ⊢
              simp only [if_pos rfl] at hqe2 ⊢
              exact le_refl _
            · rw [hg] at hqe2 ⊢
              simp only [if_neg hef2] at hqe2 ⊢
              exact hpost e hepost hqe2
        have hfirst : (fixCat u ext files).1 = renameTo files f n := by
          simp [fixCat, h, hn]
        rw [hfirst]
        have hrname : ({ f with name := n } : FsEntry).name = u ++ ext := rfl
        simp [fixCat, hkey, hrname]

/-! ### Helper lemmas about `Counter(...).most_common(1)` -/

/-- Membership through the key-collection fold of `firstSeen`. -/
lemma mem_foldl_firstSeen {α : Type} [BEq α] [LawfulBEq α] (l : List α) :
    ∀ (acc : List α) (x : α),
      x ∈ l.foldl (fun ks a => if ks.contains a then ks else ks ++ [a]) acc ↔
        x ∈ acc ∨ x ∈ l := by
  induction l with
  | nil => intro acc x; simp
  | cons a l ih =>
    intro acc x
    rw [List.foldl_cons, ih]
    by_cases hmem : acc.contains a
    · rw [if_pos hmem]
      have ha : a ∈ acc := by
        rw [List.contains_iff_exists_mem_beq] at hmem
        rcases hmem with ⟨y, hy, hby⟩
        rwa [show a = y from beq_iff_eq.mp hby]
      constructor
      · rintro (hx | hx)
        · exact Or.inl hx
        · exact Or.inr (List.mem_cons_of_mem a hx)
      · rintro (hx | hx)
        · exact Or.inl hx
        · rcases List.mem_cons.mp hx with rfl | hx2
          · exact Or.inl ha
          · exact Or.inr hx2
    · rw [if_neg hmem]
      simp only [List.mem_append, List.mem_singleton, List.mem_cons]
      tauto

/-- `firstSeen l` holds exactly the values of `l` (Counter keys). -/
lemma mem_firstSeen_iff {α : Type} [BEq α] [LawfulBEq α] (l : List α) (x : α) :
    x ∈ firstSeen l ↔ x ∈ l := by
  rw [firstSeen, mem_foldl_firstSeen]
  simp

/-- The left-to-right maximum selection of `mcGo`: the result is either the
seed (nothing beat it) or a key that strictly beats the seed and every key
before it and at least ties every key after it. -/
lemma mcGo_some_spec {α : Type} [BEq α] (l : List α) :
    ∀ (ks : List α) (b a : α), mcGo l (some b) ks = some a →
      (a = b ∧ ∀ k ∈ ks, countEq l k ≤ countEq l b) ∨
      (∃ pre post, ks = pre ++ a :: post ∧ countEq l b < countEq l a ∧
        (∀ k ∈ pre, countEq l k < countEq l a) ∧
        (∀ k ∈ post, countEq l k ≤ countEq l a)) := by
  intro ks
  induction ks with
  | nil =>
    intro b a h
    refine Or.inl ⟨?_, by simp⟩
    injection h with h
    exact h.symm
  | cons k ks ih =>
    intro b a h
    simp only [mcGo] at h
    by_cases hlt : countEq l b < countEq l k
    · rw [if_pos hlt] at h
      rcases ih k a h with ⟨rfl, hall⟩ | ⟨pre, post, hsplit, hba, hpre, hpost⟩
      · refine Or.inr ⟨[], ks, by simp, hlt, by simp, hall⟩
      · refine Or.inr ⟨k :: pre, post, by simp [hsplit], lt_trans hlt hba, ?_, hpost⟩
        intro k2 hk2
        rcases List.mem_cons.mp hk2 with rfl | hk3
        · exact hba
        · exact hpre k2 hk3
    · rw [if_neg hlt] at h
      rcases ih b a h with ⟨rfl, hall⟩ | ⟨pre, post, hsplit, hba, hpre, hpost⟩
      · refine Or.inl ⟨rfl, ?_⟩
        intro k2 hk2
        rcases List.mem_cons.mp hk2 with rfl | hk3
        · exact le_of_not_lt hlt
        · exact hall k2 hk3
      · refine Or.inr ⟨k :: pre, post, by simp [hsplit], hba, ?_, hpost⟩
        intro k2 hk2
        rcases List.mem_cons.mp hk2 with rfl | hk3
        · exact lt_of_le_of_lt (le_of_not_lt hlt) hba
        · exact hpre k2 hk3

/-- Specification of `most_common(1)`: the winner occurs in the candidate
list, has maximal multiplicity, and among the first-seen key order every
earlier key has strictly smaller multiplicity (first-seen tie-break). -/
lemma mostCommon1_spec {α : Type} [BEq α] [LawfulBEq α] (l : List α) (a : α)
    (h : mostCommon1 l = some a) :
    a ∈ l ∧ (∀ b ∈ l, countEq l b ≤ countEq l a) ∧
      ∃ pre post, firstSeen l = pre ++ a :: post ∧
        (∀ b ∈ pre, countEq l b < countEq l a) ∧
        (∀ b ∈ post, countEq l b ≤ countEq l a) := by
  rw [mostCommon1] at h
  rcases hfs : firstSeen l with - | ⟨k, ks⟩
  · rw [hfs] at h; exact absurd h (by simp [mcGo])
  · rw [hfs] at h
    simp only [mcGo] at h
    have hmemiff : ∀ x : α, x ∈ l ↔ x ∈ k :: ks := by
      intro x
      constructor
      · intro hx
        rw [← hfs]
        exact (mem_firstSeen_iff l x).mpr hx
      · intro hx
        rw [← hfs] at hx
        exact (mem_firstSeen_iff l x).mp hx
    rcases mcGo_some_spec l ks k a h with ⟨rfl, hall⟩ | ⟨pre, post, hsplit, hba, hpre, hpost⟩
    · refine ⟨(hmemiff a).mpr (by simp), ?_, [], ks, by simp, by simp, hall⟩
      intro b hb
      rcases List.mem_cons.mp ((hmemiff b).mp hb) with rfl | hb2
      · exact le_refl _
      · exact hall b hb2
    · have hbnd : ∀ b ∈ k :: ks, countEq l b ≤ countEq l a := by
        intro b hb
        rcases List.mem_cons.mp hb with rfl | hb2
        · exact le_of_lt hba
        · rw [hsplit] at hb2
          rcases List.mem_append.mp hb2 with hbp | hbr
          · exact le_of_lt (hpre b hbp)
          · rcases List.mem_cons.mp hbr with rfl | hbq
            · exact le_refl _
            · exact hpost b hbq
      refine ⟨(hmemiff a).mpr ?_, fun b hb => hbnd b ((hmemiff b).mp hb),
          k :: pre, post, by simp [hsplit], ?_, hpost⟩
      · rw [hsplit]; simp
      · intro b hb
        rcases List.mem_cons.mp hb with rfl | hb2
        · exact hba
        · exact hpre b hb2

/-! ### Helper lemmas about `UuidReader` -/

/-- Postcondition of a non-raising loop-body run: either nothing was
appended, or the record passed the name/expiry filter and exactly its
`uuid` field was appended. -/
lemma processPlayer_ok_shape (pid : String) (now : DateTime) (acc : List Json)
    (player : Json) (acc2 : List Json)
    (h : UuidReader.processPlayer pid now acc player = Except.ok acc2) :
    acc2 = acc ∨
    (jIndex player "name" = Except.ok (Json.str pid) ∧
      ∃ es d u, jIndex player "expiresOn" = Except.ok (Json.str es) ∧
        parseIso (expireArg es) = some d ∧ dtLt now d = true ∧
        jIndex player "uuid" = Except.ok u ∧ acc2 = acc ++ [u]) := by
  unfold UuidReader.processPlayer at h
  split at h
  · exact absurd h (by simp)
  · rename_i es hE
    split at h
    · exact absurd h (by simp)
    · rename_i d hP
      split at h
      · exact absurd h (by simp)
      · rename_i nm hN
        by_cases hname : (nm == Json.str pid) = true
        · rw [if_pos hname] at h
          by_cases hfut : dtLt now d = true
          · rw [if_pos hfut] at h
            split at h
            · exact absurd h (by simp)
            · rename_i u hU
              injection h with h
              have hnm : nm = Json.str pid := by
                cases nm <;> simp_all [BEq.beq, jsonBeq]
              refine Or.inr ⟨hnm ▸ hN, es, d, u, hE, hP, hfut, hU, h.symm⟩
          · rw [if_neg hfut] at h
            injection h with h
            exact Or.inl h.symm
        · rw [if_neg hname] at h
          injection h with h
          exact Or.inl h.symm
  · exact absurd h (by simp)

/-- Every candidate present after the cache loop was either already in the
shared list or is the `uuid` field of one of the processed records. -/
lemma processAll_ok_sub (pid : String) (now : DateTime) :
    ∀ (ps : List Json) (acc acc2 : List Json),
      UuidReader.processAll pid now acc ps = Except.ok acc2 →
      ∀ u ∈ acc2, u ∈ acc ∨ ∃ p ∈ ps, jIndex p "uuid" = Except.ok u := by
  intro ps
  induction ps with
  | nil =>
    intro acc acc2 h u hu
    rw [UuidReader.processAll] at h
    injection h with h
    exact Or.inl (h ▸ hu)
  | cons p ps ih =>
    intro acc acc2 h u hu
    rw [UuidReader.processAll] at h
    split at h
    · exact absurd h (by simp)
    · rename_i accm hstep
      rcases ih accm acc2 h u hu with humid | ⟨p2, hp2, hp2u⟩
      · rcases processPlayer_ok_shape pid now acc p accm hstep with rfl | ⟨-, es, d, u2, -, -, -, hU, rfl⟩
        · exact Or.inl humid
        · rcases List.mem_append.mp humid with hacc | hone
          · exact Or.inl hacc
          · rcases List.mem_singleton.mp hone with rfl
            exact Or.inr ⟨p, by simp, hU⟩
      · exact Or.inr ⟨p2, List.mem_cons_of_mem p hp2, hp2u⟩

/-! ### Helper lemmas about `UuidReader.format` -/

/-- Digits `0`-`15` print as lower-case hex characters and are fixed points
of `Char.toLower`. -/
lemma hexChar_lower (n : Nat) (hn : n < 16) :
    isLowerHex (hexChar n) = true ∧ Char.toLower (hexChar n) = hexChar n := by
  interval_cases n <;> exact ⟨by decide, by decide⟩

/-- Hyphenating 32 digits yields 36 characters. -/
lemma hyphenate_length (ds : List Char) (h : ds.length = 32) :
    (hyphenate ds).length = 36 := by
  simp [hyphenate, List.length_append, List.length_take, List.length_drop, h]

/-- Every character of the hyphenated form is a hyphen or one of the
digits. -/
lemma mem_hyphenate (ds : List Char) (c : Char) (h : c ∈ hyphenate ds) :
    c = '-' ∨ c ∈ ds := by
  have htake : ∀ (n : Nat) (l : List Char), ∀ x ∈ l.take n, x ∈ l :=
    fun n l x hx => List.take_subset n l hx
  have hdrop : ∀ (n : Nat) (l : List Char), ∀ x ∈ l.drop n, x ∈ l :=
    fun n l x hx => List.drop_subset n l hx
  simp only [hyphenate, List.mem_append, List.mem_cons] at h
  rcases h with h | h | h | h | h | h | h | h | h
  · exact Or.inr (htake _ _ _ h)
  · exact Or.inl h
  · exact Or.inr (hdrop _ _ _ (htake _ _ _ h))
  · exact Or.inl h
  · exact Or.inr (hdrop _ _ _ (hdrop _ _ _ (htake _ _ _ h)))
  · exact Or.inl h
  · exact Or.inr (hdrop _ _ _ (hdrop _ _ _ (hdrop _ _ _ (htake _ _ _ h))))
  · exact Or.inl h
  · exact Or.inr (hdrop _ _ _ (hdrop _ _ _ (hdrop _ _ _ (hdrop _ _ _ h))))

/-- A successful `format` always returns a 36-character string made of
lower-case hex digits and hyphens. -/
lemma format_ok_shape (s r : String) (h : UuidReader.format s = Except.ok r) :
    r.length = 36 ∧ ∀ c ∈ r.toList, isLowerHex c = true ∨ c = '-' := by
  unfold UuidReader.format at h
  split at h
  · rename_i hcond
    obtain ⟨hlen, hhex⟩ := hcond
    injection h with h
    subst h
    have hlen2 : ((uuidClean s).map (fun c => hexChar (hexVal c))).length = 32 := by
      rw [List.length_map]; exact hlen
    constructor
    · show (String.mk _).length = 36
      simp only [String.length, String.mk]
      rw [List.length_map]
      exact hyphenate_length _ hlen2
    · intro c hc
      have hc2 : c ∈ (hyphenate ((uuidClean s).map (fun c => hexChar (hexVal c)))).map
          Char.toLower := hc
      rcases List.mem_map.mp hc2 with ⟨c0, hc0, rfl⟩
      rcases mem_hyphenate _ _ hc0 with rfl | hc1
      · exact Or.inr (by decide)
      · rcases List.mem_map.mp hc1 with ⟨c1, hc1m, rfl⟩
        have hv : hexVal c1 < 16 := hhex c1 hc1m
        obtain ⟨h1, h2⟩ := hexChar_lower (hexVal c1) hv
        rw [h2]
        exact Or.inl h1
  · exact absurd h (by simp)

/-! ### Concrete fixtures for the claim theorems -/

/-- 32 hex digits, all `a`. -/
def uuidA32 : String := "aaaaaaaaaaaaaaaaaaaaaaaaaaaaaaaa"

/-- 32 hex digits, all `b`. -/
def uuidB32 : String := "bbbbbbbbbbbbbbbbbbbbbbbbbbbbbbbb"

/-- 32 hex digits, all `c`. -/
def uuidC32 : String := "cccccccccccccccccccccccccccccccc"

/-- Canonical form of `uuidA32`. -/
def canonA : String := "aaaaaaaa-aaaa-aaaa-aaaa-aaaaaaaaaaaa"

/-- Canonical form of `uuidB32`. -/
def canonB : String := "bbbbbbbb-bbbb-bbbb-bbbb-bbbbbbbbbbbb"

/-- A fixed resolution instant: 2020-01-01 00:00:00. -/
def nowRef : DateTime := ⟨2020, 1, 1, 0, 0, 0⟩

/-- Cache record: name `p`, uuid `uuidA32`, unexpired in 2020. -/
def recA : Json :=
  Json.obj (.cons "name" (.str "p") (.cons "uuid" (.str uuidA32)
    (.cons "expiresOn" (.str "2999-01-01 00:00:00") .nil)))

/-- Cache record: name `p`, uuid `uuidB32`, unexpired in 2020. -/
def recB : Json :=
  Json.obj (.cons "name" (.str "p") (.cons "uuid" (.str uuidB32)
    (.cons "expiresOn" (.str "2999-01-01 00:00:00") .nil)))

/-- Cache record: name `p`, uuid `uuidA32`, expired in 2020. -/
def recPast : Json :=
  Json.obj (.cons "name" (.str "p") (.cons "uuid" (.str uuidA32)
    (.cons "expiresOn" (.str "1999-01-01 00:00:00") .nil)))

/-- The file entry of the extension-guard scenario: a category holding only
`personal-notes.txt`. -/
def entryPersonal : FsEntry := ⟨"advancements", "personal-notes.txt", true, false, 100⟩

/-- A save whose `advancements` listing holds only `personal-notes.txt`. -/
def saveWithPersonal : SaveState := ⟨true, [entryPersonal], [], []⟩

/-- A canonical hyphenated uuid used as rename target. -/
def uuidHyph : String := "11111111-1111-1111-1111-111111111111"

/-- A save with one ordinary json file to repair. -/
def saveFixture : SaveState := ⟨true, [⟨"advancements", "old.json", true, false, 5⟩], [], []⟩

/-- A save whose folder is missing. -/
def missingSave : SaveState := ⟨false, [], [], []⟩

/-- A qualifying file whose mtime lies at or below the `-1.0` sentinel. -/
def negEntry : FsEntry := ⟨"advancements", "old.json", true, false, -2⟩

/-- Two qualifying files, the later-listed one newer. -/
def entry5 : FsEntry := ⟨"d", "a.json", true, false, 5⟩

/-- See `entry5`. -/
def entry9 : FsEntry := ⟨"d", "b.json", true, false, 9⟩

/-- A launcher script containing a `--uuid` token (spec scenario). -/
def launchScript : String :=
  "java -jar mc.jar --uuid cccccccccccccccccccccccccccccccc --height 480"

/-- A script environment in which the configured script path exists. -/
def scriptsEnv : List (String × Option String) :=
  [("../PCL/LatestLaunch.bat", some launchScript)]

/-! ### Claim theorems -/

/-- C1: the claim says a category whose latest-modified file has the wrong
extension is skipped with a warning and the file is not renamed. The code
does print the warning (whose own text says "skipped"), but the guard has
no `continue`, so it falls through and renames anyway: on a save whose
`advancements` listing holds only `personal-notes.txt`, `fix` emits the
warning and still renames the file to `<uuid>.json`. -/
theorem c1_extension_guard_renames_anyway :
    Save.fix saveWithPersonal uuidHyph =
      (none,
        ⟨true,
          [⟨"advancements", "11111111-1111-1111-1111-111111111111.json", true, false, 100⟩],
          [], []⟩,
        [LogEvent.warnPersonal "advancements/personal-notes.txt",
          LogEvent.renamed "advancements" "personal-notes.txt"
            "11111111-1111-1111-1111-111111111111.json"]) := rfl

/-- C2: the claim says candidates do not persist beyond one resolution run.
But `possible_uuid` is a class attribute, so a second `read` starts from
the first run's list: reading a cache whose only record carries
`uuidB32` returns the canonical form of `uuidB32` when the shared list
starts empty, yet returns the canonical form of the previous run's
`uuidA32` when the shared list still holds that earlier candidate (the
first-seen tie-break prefers it) — the two outcomes differ. -/
theorem c2_candidates_persist_across_reads :
    UuidReader.read (.parsed recB) "p" nowRef [Json.str uuidA32] "m" =
      Except.ok ([Json.str uuidA32, Json.str uuidB32], canonA) ∧
    UuidReader.read (.parsed recB) "p" nowRef [] "m" =
      Except.ok ([Json.str uuidB32], canonB) ∧
    canonA ≠ canonB :=
  ⟨rfl, rfl, by decide⟩

/-- C3 counterexample: the claim says a cache file parsed as a list of
records turns each surviving record's uuid into a candidate and that this
path is not an error. In the code, `usercache` yields the whole parsed
document once, so the loop body subscripts the *list* with
`"expiresOn"`, raising `TypeError`. -/
theorem c3_list_cache_raises :
    UuidReader.read (.parsed (.arr (.cons recA .nil))) "p" nowRef [] "m" =
      Except.error PyError.typeError := rfl

/-- C3 amended: the reader accepts the cache file only when it parses to a
single record object (its uuid becomes a candidate when the name/expiry
filter passes); a non-empty list of records raises `TypeError`, a missing
file raises `FileNotFoundError`, malformed JSON raises `JSONDecodeError`,
and a falsy parsed value (such as an empty list) merely contributes no
candidates. -/
theorem c3_single_record_only :
    UuidReader.read (.parsed recA) "p" nowRef [] "m" =
      Except.ok ([Json.str uuidA32], canonA) ∧
    UuidReader.read (.parsed (.arr (.cons recA .nil))) "p" nowRef [] "other" =
      Except.error PyError.typeError ∧
    UuidReader.read .missing "p" nowRef [] "m" = Except.error PyError.fileNotFound ∧
    UuidReader.read .malformed "p" nowRef [] "m" = Except.error PyError.jsonDecode ∧
    UuidReader.read (.parsed (.arr .nil)) "p" nowRef [] uuidA32 =
      Except.ok ([], canonA) :=
  ⟨rfl, rfl, rfl, rfl, rfl⟩

/-- C4 counterexample: the claim says resolution scans configured launcher
scripts and appends any `--uuid` value to the candidate pool before the
cache source. In the environment where the configured script exists and
carries `--uuid uuidC32` while the cache record carries `uuidB32`, the
spec-modelled scan extracts `uuidC32`, yet the code's candidate pool is
exactly `[uuidB32]` — the script value never enters the pool. -/
theorem c4_no_script_scan :
    specScriptCandidates scriptsEnv = [uuidC32] ∧
    UuidReader.read (.parsed recB) "p" nowRef [] "m" =
      Except.ok ([Json.str uuidB32], canonB) ∧
    Json.str uuidC32 ∉ [Json.str uuidB32] := by
  refine ⟨rfl, rfl, ?_⟩
  intro h
  rcases List.mem_singleton.mp h with h2
  injection h2 with h3
  exact absurd h3 (by decide)

/-- C4 amended: resolution gathers evidence from the player cache only (the
launcher-script scan is absent from the code; its path list is commented
out): every candidate present after a successful `read` either was already
in the shared list or is the `uuid` field of a record yielded by
`usercache`. -/
theorem c4_cache_is_only_source (file : CacheFile) (pid manual : String) (now : DateTime)
    (acc out1 : List Json) (r : String)
    (h : UuidReader.read file pid now acc manual = Except.ok (out1, r)) :
    ∀ u ∈ out1, u ∈ acc ∨ ∃ players p, UuidReader.usercache file = Except.ok players ∧
      p ∈ players ∧ jIndex p "uuid" = Except.ok u := by
  unfold UuidReader.read at h
  split at h
  · exact absurd h (by simp)
  · rename_i players hUC
    split at h
    · exact absurd h (by simp)
    · rename_i acc2 hPA
      intro u hu
      have hacc : u ∈ acc2 := by
        split at h
        · split at h
          · exact absurd h (by simp)
          · injection h with h2
            have h3 : acc2 = out1 := congrArg Prod.fst h2
            exact h3.symm ▸ hu
        · split at h
          · exact absurd h (by simp)
          · injection h with h2
            have h3 : acc2 = out1 := congrArg Prod.fst h2
            exact h3.symm ▸ hu
      rcases processAll_ok_sub pid now players acc acc2 hPA u hacc with ha | ⟨p, hp, hpu⟩
      · exact Or.inl ha
      · exact Or.inr ⟨players, p, hUC, hp, hpu⟩

/-- C4 amended witness: the only new candidate of the concrete run with a
single cache record is that record's uuid. -/
theorem c4_cache_is_only_source_witness :
    Json.str uuidB32 ∈ ([] : List Json) ∨
    ∃ players p, UuidReader.usercache (.parsed recB) = Except.ok players ∧
      p ∈ players ∧ jIndex p "uuid" = Except.ok (Json.str uuidB32) :=
  c4_cache_is_only_source (.parsed recB) "p" "m" nowRef [] [Json.str uuidB32] canonB rfl
    (Json.str uuidB32) (by simp)

/-- C5: repair is idempotent on the filesystem: whenever the save folder
exists, running `fix` a second time with the same uuid leaves the state
produced by the first run unchanged, because each category's
latest-modified file is then already named `<uuid>.<ext>` (or the category
has nothing to repair). -/
theorem c5_fix_idempotent (s : SaveState) (u : String) (h : s.isDir = true) :
    (Save.fix (Save.fix s u).2.1 u).2.1 = (Save.fix s u).2.1 := by
  unfold Save.fix
  rw [if_neg (by simp [h]), if_neg (by simp [h])]
  simp only []
  rw [fixCat_fs_idem, fixCat_fs_idem, fixCat_fs_idem]

/-- C5 witness: idempotence observed at a concrete one-file save. -/
theorem c5_fix_idempotent_witness :
    (Save.fix (Save.fix saveFixture uuidHyph).2.1 uuidHyph).2.1 =
      (Save.fix saveFixture uuidHyph).2.1 :=
  c5_fix_idempotent saveFixture uuidHyph rfl

/-- C6: the majority vote (`Counter(...).most_common(1)`) selects a value
of maximal multiplicity, breaking ties in favour of the key seen first;
`["a","b","a","c"]` votes `"a"` and `["a","b"]` votes `"a"`. -/
theorem c6_majority_vote :
    (∀ (l : List String) (a : String), mostCommon1 l = some a →
      a ∈ l ∧ (∀ b ∈ l, countEq l b ≤ countEq l a) ∧
      ∃ pre post, firstSeen l = pre ++ a :: post ∧
        (∀ b ∈ pre, countEq l b < countEq l a) ∧
        (∀ b ∈ post, countEq l b ≤ countEq l a)) ∧
    mostCommon1 ["a", "b", "a", "c"] = some "a" ∧
    mostCommon1 ["a", "b"] = some "a" :=
  ⟨fun l a h => mostCommon1_spec l a h, rfl, rfl⟩

/-- C6 witness: the general clause applied to `["x","y","x"]`, whose vote
is `"x"`. -/
theorem c6_majority_vote_witness :
    "x" ∈ ["x", "y", "x"] ∧
    (∀ b ∈ ["x", "y", "x"], countEq ["x", "y", "x"] b ≤ countEq ["x", "y", "x"] "x") ∧
    ∃ pre post, firstSeen ["x", "y", "x"] = pre ++ "x" :: post ∧
      (∀ b ∈ pre, countEq ["x", "y", "x"] b < countEq ["x", "y", "x"] "x") ∧
      (∀ b ∈ post, countEq ["x", "y", "x"] b ≤ countEq ["x", "y", "x"] "x") :=
  c6_majority_vote.1 ["x", "y", "x"] "x" rfl

/-- C7: a record contributes a candidate only when its `name` equals the
target identifier and its parsed `expiresOn` is strictly later than the
resolution instant; with an expiry not in the future, a non-raising run
never appends a candidate, whatever the name. -/
theorem c7_expiry_filter :
    (∀ (pid : String) (now : DateTime) (acc : List Json) (player : Json) (acc2 : List Json),
      UuidReader.processPlayer pid now acc player = Except.ok acc2 →
      acc2 = acc ∨
      (jIndex player "name" = Except.ok (Json.str pid) ∧
        ∃ es d u, jIndex player "expiresOn" = Except.ok (Json.str es) ∧
          parseIso (expireArg es) = some d ∧ dtLt now d = true ∧
          jIndex player "uuid" = Except.ok u ∧ acc2 = acc ++ [u])) ∧
    (∀ (pid : String) (now : DateTime) (acc : List Json) (player : Json) (acc2 : List Json)
        (es : String) (d : DateTime),
      UuidReader.processPlayer pid now acc player = Except.ok acc2 →
      jIndex player "expiresOn" = Except.ok (Json.str es) →
      parseIso (expireArg es) = some d → dtLt now d = false → acc2 = acc) := by
  refine ⟨fun pid now acc player acc2 h => processPlayer_ok_shape pid now acc player acc2 h, ?_⟩
  intro pid now acc player acc2 es d h hE hP hlt
  rcases processPlayer_ok_shape pid now acc player acc2 h with rfl | hr
  · rfl
  · obtain ⟨-, es2, d2, u, hE2, hP2, hfut, -, rfl⟩ := hr
    have h12 := hE.symm.trans hE2
    injection h12 with h13
    injection h13 with h14
    subst h14
    have hd := hP.symm.trans hP2
    injection hd with hd2
    subst hd2
    exact absurd (hfut.symm.trans hlt) (by simp)

/-- C7 witness: the expired matching record `recPast` leaves the candidate
list untouched. -/
theorem c7_expiry_filter_witness :
    UuidReader.processPlayer "p" nowRef [Json.str uuidB32] recPast =
      Except.ok [Json.str uuidB32] ∧
    ([Json.str uuidB32] : List Json) = [Json.str uuidB32] :=
  ⟨rfl,
    c7_expiry_filter.2 "p" nowRef [Json.str uuidB32] recPast [Json.str uuidB32]
      "1999-01-01 00:00:00" ⟨1999, 1, 1, 0, 0, 0⟩ rfl rfl rfl rfl⟩

/-- C8: normalization canonicalizes to the lower-case hyphenated
8-4-4-4-12 form: any successful `format` output has 36 characters, all
lower-case hex digits or hyphens; the hyphenated, compact and upper-case
spellings of the same uuid normalize to the identical string; and an
unparseable input fails with the invalid-uuid `ValueError`. -/
theorem c8_normalization :
    (∀ (s r : String), UuidReader.format s = Except.ok r →
      r.length = 36 ∧ ∀ c ∈ r.toList, isLowerHex c = true ∨ c = '-') ∧
    UuidReader.format "069a79f4-44e9-4726-a5be-fca90e38aaf5" =
      Except.ok "069a79f4-44e9-4726-a5be-fca90e38aaf5" ∧
    UuidReader.format "069a79f444e94726a5befca90e38aaf5" =
      Except.ok "069a79f4-44e9-4726-a5be-fca90e38aaf5" ∧
    UuidReader.format "069A79F4-44E9-4726-A5BE-FCA90E38AAF5" =
      Except.ok "069a79f4-44e9-4726-a5be-fca90e38aaf5" ∧
    UuidReader.format "not-a-uuid" = Except.error PyError.valueError :=
  ⟨format_ok_shape, rfl, rfl, rfl, rfl⟩

/-- C8 witness: the general clause applied to the compact spelling. -/
theorem c8_normalization_witness :
    ("069a79f4-44e9-4726-a5be-fca90e38aaf5" : String).length = 36 ∧
    ∀ c ∈ ("069a79f4-44e9-4726-a5be-fca90e38aaf5" : String).toList,
      isLowerHex c = true ∨ c = '-' :=
  c8_normalization.1 "069a79f444e94726a5befca90e38aaf5"
    "069a79f4-44e9-4726-a5be-fca90e38aaf5" rfl

/-- C9 counterexample: the claim says `latest_modified` returns the
qualifying file of maximal mtime whenever one exists. A single regular
non-symlink file with mtime `-2` qualifies and is maximal, yet the scan
returns `none`, because its mtime does not beat the `-1.0` sentinel. -/
theorem c9_sentinel_hides_file :
    latest_modified [negEntry] = none ∧ qualifies negEntry = true ∧
    ([negEntry] : List FsEntry) ≠ [] :=
  ⟨rfl, rfl, by simp⟩

/-- C9 amended: `latest_modified` returns the first-encountered qualifying
entry of maximal mtime among those with mtime above the `-1.0` sentinel;
it returns `none` exactly when no qualifying entry beats the sentinel (in
particular for a missing or empty directory). -/
theorem c9_latest_modified_amended :
    (∀ (entries : List FsEntry) (f : FsEntry), latest_modified entries = some f →
      qualifies f = true ∧ -1 < f.mtime ∧
      (∀ e ∈ entries, qualifies e = true → e.mtime ≤ f.mtime) ∧
      ∃ pre post, entries = pre ++ f :: post ∧
        ∀ e ∈ pre, qualifies e = true → e.mtime < f.mtime) ∧
    (∀ entries : List FsEntry, latest_modified entries = none →
      ∀ e ∈ entries, qualifies e = true → e.mtime ≤ -1) := by
  constructor
  · intro entries f h
    rcases lmGo_eq_some entries none (-1) f h with ⟨hb, -⟩ | ⟨pre, post, hsplit, hqf, ht, hpre, hpost⟩
    · exact absurd hb (by simp)
    · refine ⟨hqf, ht, ?_, pre, post, hsplit, hpre⟩
      intro e he hqe
      rw [hsplit] at he
      rcases List.mem_append.mp he with hp | hr
      · exact le_of_lt (hpre e hp hqe)
      · rcases List.mem_cons.mp hr with rfl | hq
        · exact le_refl _
        · exact hpost e hq hqe
  · intro entries h
    exact (lmGo_eq_none entries none (-1) h).2

/-- C9 amended witness: on `[entry5, entry9]` the scan returns `entry9`,
which qualifies, beats the sentinel, dominates both entries, and sits after
the strictly older `entry5`. -/
theorem c9_latest_modified_amended_witness :
    qualifies entry9 = true ∧ -1 < entry9.mtime ∧
    (∀ e ∈ [entry5, entry9], qualifies e = true → e.mtime ≤ entry9.mtime) ∧
    ∃ pre post, [entry5, entry9] = pre ++ entry9 :: post ∧
      ∀ e ∈ pre, qualifies e = true → e.mtime < entry9.mtime :=
  c9_latest_modified_amended.1 [entry5, entry9] entry9 rfl

/-- C10: when the save path is not an existing directory, `fix` raises
`FileNotFoundError` before touching any category: no rename happens, the
log is empty, and the filesystem state is returned unchanged. -/
theorem c10_fix_missing_save (s : SaveState) (u : String) (h : s.isDir = false) :
    Save.fix s u = (some FixError.saveNotFound, s, []) := by
  rw [Save.fix, if_pos h]

/-- C10 witness: the missing-save fixture. -/
theorem c10_fix_missing_save_witness :
    Save.fix missingSave uuidHyph = (some FixError.saveNotFound, missingSave, []) :=
  c10_fix_missing_save missingSave uuidHyph rfl
